import Mathlib

/-!
Shallow embedding of `src/hash_table.py` (a separate-chaining hash table with
dynamic resizing) and proofs of the specification's claims about it.

Modelling conventions:
* `_Item` becomes `Item`; `HashTable` keeps its fields `table` (the list of
  bucket chains, `self._table`) and `count_items` (`self._count_items`).
* Python's built-in `hash` is an unspecified deterministic function on keys;
  the embedding takes it as a parameter `hv : K → Int`.  Python's `%` on
  integers with a positive modulus agrees with Lean's `Int.emod`, so
  `_get_index` becomes `(hv k % capacity).toNat`.
* `KeyError` (the spec's KeyNotFound) is modelled by `Option`/`Except`:
  `find`/`get` return `none` where the Python raises, and `delete` returns
  `Except.error s` where `s` is the container state at the moment the
  exception propagates (the raise happens inside `_find`, before any of the
  mutating statements of `_delete`, hence `s` is the input table unchanged).
* `_update`'s `resize` flag yields two functions: `update` (flag `True`,
  the public `__setitem__` path) and `updateNoResize` (flag `False`, used by
  `_resize` while rehashing).
* The counter `self._count_items` is a Python int that stays non-negative in
  every state the class itself constructs, so it is modelled as `Nat`.
* `self._table[index]` is modelled by `List.getD index []`; in every state
  where the Python code performs this access the index is in range (it is a
  remainder modulo the table length), so the default is never consulted.
-/

set_option maxHeartbeats 1000000
set_option linter.unusedSectionVars false

namespace SHT

/-- `_Item`: one key/value pair stored in a bucket chain. -/
structure Item (K V : Type) where
  key : K
  value : V
deriving DecidableEq, Repr

/-- The container state: `self._table` and `self._count_items`. -/
structure HashTable (K V : Type) where
  table : List (List (Item K V))
  count_items : Nat
deriving DecidableEq, Repr

/-- `_INITIAL_SIZE`: initial number of buckets. -/
def INITIAL_SIZE : Nat := 4

/-- `_RESIZE_MUL`: growth/shrink factor. -/
def RESIZE_MUL : Nat := 2

/-- `__init__` with no initial dict: `_INITIAL_SIZE` empty buckets, count 0. -/
def HashTable.empty (K V : Type) : HashTable K V :=
  { table := List.replicate INITIAL_SIZE ([] : List (Item K V)), count_items := 0 }

/-- `_get_index` as a function of the capacity: `hash(key) % capacity`.
Python `%` with a positive right operand agrees with `Int.emod` (both give a
representative in `[0, capacity)`); the Python code divides by zero when the
capacity is 0, a situation proved unreachable below (`reachable_inv`). -/
def getIndexC (hv : K → Int) (cap : Nat) (k : K) : Nat :=
  ((hv k) % (cap : Int)).toNat

/-- `_get_index`: bucket index of a key under the current capacity. -/
def getIndex (hv : K → Int) (t : HashTable K V) (k : K) : Nat :=
  getIndexC hv t.table.length k

/-- The scan loop of `_find` over one bucket: first position whose item's key
equals the probe key, else `none` (the `raise KeyError`). -/
def findSub [DecidableEq K] : List (Item K V) → K → Option Nat
  | [], _ => none
  | it :: rest, k => if it.key = k then some 0 else (findSub rest k).map (· + 1)

/-- `_find`: bucket index and in-chain position of the key, `none` = KeyError. -/
def find [DecidableEq K] (hv : K → Int) (t : HashTable K V) (k : K) :
    Option (Nat × Nat) :=
  match findSub (t.table.getD (getIndex hv t k) []) k with
  | some s => some (getIndex hv t k, s)
  | none => none

/-- `self._table[index][sub_index].value = value`: replace the value of the
item at one position of a chain, keys and order untouched. -/
def setValueAt : List (Item K V) → Nat → V → List (Item K V)
  | [], _, _ => []
  | it :: rest, 0, v => { it with value := v } :: rest
  | it :: rest, s+1, v => it :: setValueAt rest s v

/-- The found-branch of `_update`: in-place replacement of one entry's value. -/
def replaceValue (t : HashTable K V) (i s : Nat) (v : V) : HashTable K V :=
  { t with table := t.table.set i (setValueAt (t.table.getD i []) s v) }

/-- The not-found branch of `_update` before the resize check: append a fresh
item to the key's bucket and increment the counter. -/
def appendNew (hv : K → Int) (t : HashTable K V) (k : K) (v : V) : HashTable K V :=
  { table := t.table.set (getIndex hv t k)
      ((t.table.getD (getIndex hv t k) []) ++ [⟨k, v⟩]),
    count_items := t.count_items + 1 }

/-- `_update(key, value, resize=False)`: used by `_resize` while rehashing. -/
def updateNoResize [DecidableEq K] (hv : K → Int) (t : HashTable K V) (k : K)
    (v : V) : HashTable K V :=
  match find hv t k with
  | some (i, s) => replaceValue t i s v
  | none => appendNew hv t k v

/-- The reallocation part of `_resize`: fresh table of `newSize` empty buckets,
counter reset to 0, then every item of the old table reinserted in
bucket-then-chain order with the resize trigger suppressed. -/
def rehash [DecidableEq K] (hv : K → Int) (newSize : Nat)
    (old : List (List (Item K V))) : HashTable K V :=
  old.flatten.foldl (fun acc it => updateNoResize hv acc it.key it.value)
    { table := List.replicate newSize [], count_items := 0 }

/-- `_resize`: grow when `count * 2 > capacity`, else shrink when
`count * 2 * 2 < capacity`, else leave the table untouched. -/
def resize [DecidableEq K] (hv : K → Int) (t : HashTable K V) : HashTable K V :=
  let expected := t.count_items * RESIZE_MUL
  if expected > t.table.length then
    rehash hv (t.table.length * RESIZE_MUL) t.table
  else if expected * RESIZE_MUL < t.table.length then
    rehash hv (t.table.length / RESIZE_MUL) t.table
  else
    t

/-- `_update(key, value)` with the default `resize=True`: the `__setitem__`
(`set`) path. -/
def update [DecidableEq K] (hv : K → Int) (t : HashTable K V) (k : K)
    (v : V) : HashTable K V :=
  match find hv t k with
  | some (i, s) => replaceValue t i s v
  | none => resize hv (appendNew hv t k v)

/-- `_get` / `__getitem__`: value stored under the key, `none` = KeyError. -/
def get [DecidableEq K] (hv : K → Int) (t : HashTable K V) (k : K) : Option V :=
  match find hv t k with
  | some (i, s) => ((t.table.getD i []).get? s).map Item.value
  | none => none

/-- The mutation statements of `_delete` after a successful find:
`del self._table[index][sub_index]` and `self._count_items -= 1`. -/
def removeAt (t : HashTable K V) (i s : Nat) : HashTable K V :=
  { table := t.table.set i ((t.table.getD i []).eraseIdx s),
    count_items := t.count_items - 1 }

/-- `_delete` / `__delitem__`.  `Except.error s` models the KeyError
propagating to the caller with the container in state `s`; the raise occurs
inside `_find`, before the `del`, the decrement and the resize check, so the
error state is the input unchanged. -/
def delete [DecidableEq K] (hv : K → Int) (t : HashTable K V) (k : K) :
    Except (HashTable K V) (HashTable K V) :=
  match find hv t k with
  | none => Except.error t
  | some (i, s) => Except.ok (resize hv (removeAt t i s))

/-- `items()`: all live pairs in bucket-index order, chain order inside a
bucket (the generator collected into a list). -/
def items (t : HashTable K V) : List (K × V) :=
  t.table.flatten.map (fun it => (it.key, it.value))

/-- `__len__`. -/
def len (t : HashTable K V) : Nat := t.count_items

/-- A sequence of `set` calls on a fresh container (also `__init__` with an
initial mapping, which performs exactly these `_update` calls in order). -/
def build [DecidableEq K] (hv : K → Int) (ps : List (K × V)) : HashTable K V :=
  ps.foldl (fun acc p => update hv acc p.1 p.2) (HashTable.empty K V)

/-- States reachable from construction by `set`, `get` and `delete` calls
(`get` never changes the state, so it contributes no constructor). -/
inductive Reachable [DecidableEq K] (hv : K → Int) : HashTable K V → Prop where
  | empty : Reachable hv (HashTable.empty K V)
  | set (t : HashTable K V) (k : K) (v : V) :
      Reachable hv t → Reachable hv (update hv t k v)
  | del (t : HashTable K V) (k : K) (t' : HashTable K V) :
      Reachable hv t → delete hv t k = Except.ok t' → Reachable hv t'

/-- Keys of a chain, in order. -/
def chainKeys (l : List (Item K V)) : List K := l.map Item.key

/-- The structural invariant of the container (minus the capacity-one clause):
positive capacity, every item in its home bucket, no duplicate key inside a
bucket, counter equal to the total number of stored items. -/
structure InvW (hv : K → Int) (t : HashTable K V) : Prop where
  posCap : 1 ≤ t.table.length
  home : ∀ i : Nat, ∀ it ∈ t.table.getD i [], getIndexC hv t.table.length it.key = i
  bnodup : ∀ i : Nat, (chainKeys (t.table.getD i [])).Nodup
  countEq : t.count_items = (t.table.map List.length).sum

/-- The full reachable-state invariant: `InvW` plus the fact that a table of
capacity 1 is necessarily empty (which is what keeps the shrink step from ever
producing capacity 0). -/
def Inv (hv : K → Int) (t : HashTable K V) : Prop :=
  InvW hv t ∧ (t.table.length = 1 → t.count_items = 0)

/-- Reference lookup on a chain: value of the first item whose key matches. -/
def assocLookup [DecidableEq K] : List (Item K V) → K → Option V
  | [], _ => none
  | it :: rest, k => if it.key = k then some it.value else assocLookup rest k

/-- The value of the last `set` call for a key in a sequence of pairs. -/
def lastWrite [DecidableEq K] : List (K × V) → K → Option V
  | [], _ => none
  | p :: ps, k =>
    match lastWrite ps k with
    | some v => some v
    | none => if p.1 = k then some p.2 else none

/-- One public mutating call: `t[k] = v` or `del t[k]`. -/
inductive Op (K V : Type) where
  | set (k : K) (v : V)
  | del (k : K)
deriving DecidableEq, Repr

/-- Apply one call to a state.  A failed delete raises KeyError; the state it
leaves behind is the error state of `delete` (proved equal to the input). -/
def applyOp [DecidableEq K] (hv : K → Int) (t : HashTable K V) :
    Op K V → HashTable K V
  | Op.set k v => update hv t k v
  | Op.del k =>
    match delete hv t k with
    | Except.ok t2 => t2
    | Except.error s => s

/-- Run a sequence of public calls on a fresh container. -/
def runOps [DecidableEq K] (hv : K → Int) (ops : List (Op K V)) :
    HashTable K V :=
  ops.foldl (applyOp hv) (HashTable.empty K V)

/-- Number of distinct keys appearing in the `set` calls of a sequence. -/
def distinctInserted [DecidableEq K] (ops : List (Op K V)) : Nat :=
  ((ops.filterMap (fun o => match o with
    | Op.set k _ => some k
    | Op.del _ => none)).dedup).length

/-- Number of delete calls that succeed when the sequence runs from `t`. -/
def successfulDeletes [DecidableEq K] (hv : K → Int) :
    HashTable K V → List (Op K V) → Nat
  | _, [] => 0
  | t, o :: rest =>
    (match o with
     | Op.del k => if (delete hv t k).isOk then 1 else 0
     | Op.set _ _ => 0) + successfulDeletes hv (applyOp hv t o) rest

/-- Hash function for the concrete `Nat`-keyed instances: CPython's hash of a
small non-negative int is the int itself. -/
def natHash : Nat → Int := fun n => (n : Int)

/-- A deterministic stand-in hash for the concrete `String`-keyed example (the
model takes the hash function as a parameter, as §4.1 only requires
determinism). -/
def strHash : String → Int := fun s => (s.length : Int)

section ChainLemmas

variable {K V : Type} [DecidableEq K]

theorem findSub_eq_none_iff (l : List (Item K V)) (k : K) :
    findSub l k = none ↔ ∀ it ∈ l, it.key ≠ k := by
  induction l with
  | nil => simp [findSub]
  | cons it rest ih =>
    by_cases h : it.key = k <;> simp [findSub, h, ih]

theorem findSub_eq_some_elim (l : List (Item K V)) (k : K) (s : Nat)
    (h : findSub l k = some s) : ∃ it, l.get? s = some it ∧ it.key = k := by
  induction l generalizing s with
  | nil => simp [findSub] at h
  | cons hd rest ih =>
    by_cases hk : hd.key = k
    · simp [findSub, hk] at h
      subst h
      exact ⟨hd, rfl, hk⟩
    · simp [findSub, hk] at h
      obtain ⟨s0, hs0, rfl⟩ := h
      obtain ⟨it, hit, hkey⟩ := ih s0 hs0
      exact ⟨it, hit, hkey⟩

theorem findSub_lt_length (l : List (Item K V)) (k : K) (s : Nat)
    (h : findSub l k = some s) : s < l.length := by
  obtain ⟨it, hit, -⟩ := findSub_eq_some_elim l k s h
  exact (List.get?_eq_some.mp hit).1

theorem chainGet_eq_assocLookup (l : List (Item K V)) (k : K) :
    (match findSub l k with
     | some s => (l.get? s).map Item.value
     | none => none) = assocLookup l k := by
  induction l with
  | nil => simp [findSub, assocLookup]
  | cons hd rest ih =>
    by_cases hk : hd.key = k
    · simp [findSub, hk, assocLookup]
    · simp only [findSub, hk, if_false, assocLookup, if_neg hk]
      cases hr : findSub rest k with
      | none => simp [hr] at ih ⊢; exact ih
      | some s => simp [hr] at ih ⊢; exact ih

theorem assocLookup_eq_none_iff (l : List (Item K V)) (k : K) :
    assocLookup l k = none ↔ ∀ it ∈ l, it.key ≠ k := by
  induction l with
  | nil => simp [assocLookup]
  | cons it rest ih =>
    by_cases h : it.key = k <;> simp [assocLookup, h, ih]

theorem assocLookup_isSome_iff (l : List (Item K V)) (k : K) :
    (assocLookup l k).isSome = true ↔ k ∈ chainKeys l := by
  constructor
  · intro hs
    by_contra hk
    have hn : assocLookup l k = none := by
      rw [assocLookup_eq_none_iff]
      intro it hit he
      apply hk
      rw [show k = it.key from he.symm]
      exact List.mem_map_of_mem Item.key hit
    rw [Option.isSome_iff_ne_none] at hs
    exact hs hn
  · intro hk
    obtain ⟨it, hit, he⟩ := List.mem_map.mp hk
    rw [Option.isSome_iff_ne_none]
    intro hn
    exact ((assocLookup_eq_none_iff l k).mp hn it hit) he

theorem assocLookup_eq_some_mem (l : List (Item K V)) (k : K) (v : V)
    (h : assocLookup l k = some v) : (⟨k, v⟩ : Item K V) ∈ l := by
  induction l with
  | nil => simp [assocLookup] at h
  | cons it rest ih =>
    by_cases hk : it.key = k
    · simp [assocLookup, hk] at h
      obtain ⟨ik, iv⟩ := it
      have hik : ik = k := hk
      subst hik
      have hiv : iv = v := h
      subst hiv
      exact List.mem_cons_self _ _
    · simp [assocLookup, hk] at h
      exact List.mem_cons_of_mem _ (ih h)

theorem chainKeys_cons (hd : Item K V) (rest : List (Item K V)) :
    chainKeys (hd :: rest) = hd.key :: chainKeys rest := rfl

theorem assocLookup_of_mem_nodup (l : List (Item K V)) (it : Item K V)
    (hnd : (chainKeys l).Nodup) (hmem : it ∈ l) :
    assocLookup l it.key = some it.value := by
  induction l with
  | nil => simp at hmem
  | cons hd rest ih =>
    rw [chainKeys_cons, List.nodup_cons] at hnd
    rcases List.mem_cons.mp hmem with rfl | hm
    · simp [assocLookup]
    · have hne : hd.key ≠ it.key := by
        intro he
        exact hnd.1 (by rw [he]; exact List.mem_map_of_mem Item.key hm)
      simp [assocLookup, hne]
      exact ih hnd.2 hm

theorem assocLookup_append (l₁ l₂ : List (Item K V)) (k : K) :
    assocLookup (l₁ ++ l₂) k =
      match assocLookup l₁ k with
      | some v => some v
      | none => assocLookup l₂ k := by
  induction l₁ with
  | nil => simp [assocLookup]
  | cons it rest ih =>
    by_cases h : it.key = k <;> simp [assocLookup, h, ih]

theorem chainKeys_setValueAt (l : List (Item K V)) (s : Nat) (v : V) :
    chainKeys (setValueAt l s v) = chainKeys l := by
  induction l generalizing s with
  | nil => simp [setValueAt]
  | cons it rest ih =>
    cases s with
    | zero => simp [setValueAt, chainKeys]
    | succ n => simp [setValueAt, chainKeys] at ih ⊢; exact ih n

theorem length_setValueAt (l : List (Item K V)) (s : Nat) (v : V) :
    (setValueAt l s v).length = l.length := by
  induction l generalizing s with
  | nil => simp [setValueAt]
  | cons it rest ih =>
    cases s with
    | zero => simp [setValueAt]
    | succ n => simp [setValueAt, ih n]

theorem assocLookup_setValueAt_self (l : List (Item K V)) (k : K) (s : Nat)
    (v : V) (h : findSub l k = some s) :
    assocLookup (setValueAt l s v) k = some v := by
  induction l generalizing s with
  | nil => simp [findSub] at h
  | cons hd rest ih =>
    by_cases hk : hd.key = k
    · simp [findSub, hk] at h
      subst h
      simp [setValueAt, assocLookup, hk]
    · simp [findSub, hk] at h
      obtain ⟨s0, hs0, rfl⟩ := h
      simp [setValueAt, assocLookup, hk]
      exact ih s0 hs0

theorem assocLookup_setValueAt_ne (l : List (Item K V)) (k kx : K) (s : Nat)
    (v : V) (h : findSub l k = some s) (hne : kx ≠ k) :
    assocLookup (setValueAt l s v) kx = assocLookup l kx := by
  induction l generalizing s with
  | nil => simp [findSub] at h
  | cons hd rest ih =>
    by_cases hk : hd.key = k
    · simp [findSub, hk] at h
      subst h
      have : hd.key ≠ kx := by rw [hk]; exact fun he => hne he.symm
      simp [setValueAt, assocLookup, this]
    · simp [findSub, hk] at h
      obtain ⟨s0, hs0, rfl⟩ := h
      by_cases hx : hd.key = kx <;> simp [setValueAt, assocLookup, hx]
      exact ih s0 hs0

theorem assocLookup_eraseIdx_self (l : List (Item K V)) (k : K) (s : Nat)
    (h : findSub l k = some s) (hnd : (chainKeys l).Nodup) :
    assocLookup (l.eraseIdx s) k = none := by
  induction l generalizing s with
  | nil => simp [findSub] at h
  | cons hd rest ih =>
    by_cases hk : hd.key = k
    · rw [chainKeys_cons, List.nodup_cons] at hnd
      simp [findSub, hk] at h
      subst h
      rw [List.eraseIdx_cons_zero, assocLookup_eq_none_iff]
      intro it hit he
      exact hnd.1 (by
        rw [hk, show k = it.key from he.symm]
        exact List.mem_map_of_mem Item.key hit)
    · rw [chainKeys_cons, List.nodup_cons] at hnd
      simp [findSub, hk] at h
      obtain ⟨s0, hs0, rfl⟩ := h
      rw [List.eraseIdx_cons_succ]
      simp [assocLookup, hk]
      exact ih s0 hs0 hnd.2

theorem assocLookup_eraseIdx_ne (l : List (Item K V)) (k kx : K) (s : Nat)
    (h : findSub l k = some s) (hne : kx ≠ k) :
    assocLookup (l.eraseIdx s) kx = assocLookup l kx := by
  induction l generalizing s with
  | nil => simp [findSub] at h
  | cons hd rest ih =>
    by_cases hk : hd.key = k
    · simp [findSub, hk] at h
      subst h
      have : hd.key ≠ kx := by rw [hk]; exact fun he => hne he.symm
      simp [List.eraseIdx_cons_zero, assocLookup, this]
    · simp [findSub, hk] at h
      obtain ⟨s0, hs0, rfl⟩ := h
      by_cases hx : hd.key = kx <;>
        simp [List.eraseIdx_cons_succ, assocLookup, hx]
      exact ih s0 hs0

end ChainLemmas

section TableLemmas

variable {K V : Type} [DecidableEq K]

theorem getD_eq_getElem {α : Type} (l : List α) (i : Nat) (d : α)
    (h : i < l.length) : l.getD i d = l[i] := by
  rw [List.getD_eq_getElem?_getD, List.getElem?_eq_getElem h]
  rfl

theorem getD_set_self {α : Type} (l : List α) (i : Nat) (a d : α)
    (h : i < l.length) : (l.set i a).getD i d = a := by
  rw [List.getD_eq_getElem?_getD, List.getElem?_set_self h]
  rfl

theorem getD_set_ne {α : Type} (l : List α) (i j : Nat) (a d : α)
    (h : i ≠ j) : (l.set i a).getD j d = l.getD j d := by
  rw [List.getD_eq_getElem?_getD, List.getElem?_set_ne h,
    List.getD_eq_getElem?_getD]

theorem getD_replicate_nil {α : Type} (n i : Nat) :
    (List.replicate n ([] : List α)).getD i [] = [] := by
  rw [List.getD_eq_getElem?_getD, List.getElem?_replicate]
  split <;> rfl

theorem set_getD_self {α : Type} (l : List α) (i : Nat) (d : α)
    (h : i < l.length) : l.set i (l.getD i d) = l := by
  induction l generalizing i with
  | nil => simp at h
  | cons x xs ih =>
    cases i with
    | zero => simp [List.set]
    | succ n =>
      rw [List.getD_cons_succ]
      show x :: xs.set n (xs.getD n d) = x :: xs
      rw [ih n (by simpa using h)]

theorem sum_map_length_set {α : Type} (l : List (List α)) (i : Nat)
    (b : List α) (h : i < l.length) :
    ((l.set i b).map List.length).sum + (l.getD i []).length
      = (l.map List.length).sum + b.length := by
  induction l generalizing i with
  | nil => simp at h
  | cons x xs ih =>
    cases i with
    | zero => simp [List.set]; omega
    | succ n =>
      have hn : n < xs.length := by simpa using h
      have := ih n hn
      simp [List.set, List.getD_cons_succ] at this ⊢
      omega

theorem mem_flatten_iff_getD {α : Type} (l : List (List α)) (x : α) :
    x ∈ l.flatten ↔ ∃ i, i < l.length ∧ x ∈ l.getD i [] := by
  induction l with
  | nil => simp
  | cons y ys ih =>
    simp only [List.flatten_cons, List.mem_append, ih]
    constructor
    · rintro (hy | ⟨i, hi, hx⟩)
      · exact ⟨0, by simp, by simpa using hy⟩
      · exact ⟨i + 1, by simpa using hi, by simpa using hx⟩
    · rintro ⟨i, hi, hx⟩
      cases i with
      | zero => exact Or.inl (by simpa using hx)
      | succ n => exact Or.inr ⟨n, by simpa using hi, by simpa using hx⟩

theorem getIndexC_lt (hv : K → Int) (cap : Nat) (k : K) (h : 0 < cap) :
    getIndexC hv cap k < cap := by
  unfold getIndexC
  have h0 : ((cap : Nat) : Int) ≠ 0 := by
    exact_mod_cast Nat.pos_iff_ne_zero.mp h
  have h1 : 0 ≤ hv k % (cap : Int) := Int.emod_nonneg _ h0
  have h2 : hv k % (cap : Int) < (cap : Int) := by
    apply Int.emod_lt_of_pos
    exact_mod_cast h
  omega

theorem getIndex_congr_len (hv : K → Int) (t t' : HashTable K V) (k : K)
    (h : t'.table.length = t.table.length) :
    getIndex hv t' k = getIndex hv t k := by
  unfold getIndex
  rw [h]

theorem find_eq_none_iff (hv : K → Int) (t : HashTable K V) (k : K) :
    find hv t k = none ↔
      findSub (t.table.getD (getIndex hv t k) []) k = none := by
  unfold find
  cases h : findSub (t.table.getD (getIndex hv t k) []) k <;> simp [h]

theorem find_eq_some_elim (hv : K → Int) (t : HashTable K V) (k : K)
    (i s : Nat) (h : find hv t k = some (i, s)) :
    i = getIndex hv t k ∧
      findSub (t.table.getD (getIndex hv t k) []) k = some s := by
  unfold find at h
  cases hf : findSub (t.table.getD (getIndex hv t k) []) k <;> rw [hf] at h
  · simp at h
  · simp at h
    exact ⟨h.1.symm, by rw [h.2]⟩

theorem get_eq_assoc_home (hv : K → Int) (t : HashTable K V) (k : K) :
    get hv t k = assocLookup (t.table.getD (getIndex hv t k) []) k := by
  unfold get find
  rw [show assocLookup (t.table.getD (getIndex hv t k) []) k =
      (match findSub (t.table.getD (getIndex hv t k) []) k with
       | some s => ((t.table.getD (getIndex hv t k) []).get? s).map Item.value
       | none => none) from (chainGet_eq_assocLookup _ _).symm]
  cases h : findSub (t.table.getD (getIndex hv t k) []) k <;> simp [h]

theorem get_eq_none_iff_find (hv : K → Int) (t : HashTable K V) (k : K) :
    get hv t k = none ↔ find hv t k = none := by
  rw [get_eq_assoc_home, find_eq_none_iff]
  rw [assocLookup_eq_none_iff, findSub_eq_none_iff]

theorem get_isSome_of_find (hv : K → Int) (t : HashTable K V) (k : K)
    (i s : Nat) (h : find hv t k = some (i, s)) :
    (get hv t k).isSome = true := by
  rw [Option.isSome_iff_ne_none]
  intro hn
  rw [get_eq_none_iff_find] at hn
  rw [h] at hn
  exact Option.noConfusion hn

end TableLemmas

section InvLemmas

variable {K V : Type} [DecidableEq K]

theorem chainKeys_getD (l : List (List (Item K V))) (j : Nat) :
    chainKeys (l.getD j []) = (l.map chainKeys).getD j [] := by
  induction l generalizing j with
  | nil => simp [chainKeys]
  | cons x xs ih =>
    cases j with
    | zero => simp [List.getD_cons_zero]
    | succ n => simp only [List.getD_cons_succ, List.map_cons]; exact ih n

theorem chainKeys_flatten (l : List (List (Item K V))) :
    chainKeys l.flatten = (l.map chainKeys).flatten := by
  unfold chainKeys
  rw [List.map_flatten]

theorem flattenKeys_nodup (hv : K → Int) (t : HashTable K V) (h : InvW hv t) :
    (chainKeys t.table.flatten).Nodup := by
  rw [chainKeys_flatten, List.nodup_flatten]
  constructor
  · intro s hs
    obtain ⟨b, hb, rfl⟩ := List.mem_map.mp hs
    obtain ⟨i, hi, hbi⟩ := List.mem_iff_getElem.mp hb
    have hbd : b = t.table.getD i [] := by rw [getD_eq_getElem _ _ _ hi, hbi]
    rw [hbd]
    exact h.bnodup i
  · rw [List.pairwise_iff_getElem]
    intro i j hi hj hij
    intro k hki hkj
    rw [List.getElem_map] at hki hkj
    have hi2 : i < t.table.length := by simpa using hi
    have hj2 : j < t.table.length := by simpa using hj
    obtain ⟨it1, hm1, he1⟩ := List.mem_map.mp (show k ∈ chainKeys t.table[i] from hki)
    obtain ⟨it2, hm2, he2⟩ := List.mem_map.mp (show k ∈ chainKeys t.table[j] from hkj)
    have h1 := h.home i it1 (by rwa [getD_eq_getElem _ _ _ hi2])
    have h2 := h.home j it2 (by rwa [getD_eq_getElem _ _ _ hj2])
    rw [he1] at h1
    rw [he2] at h2
    omega

theorem get_eq_assoc_flatten (hv : K → Int) (t : HashTable K V)
    (h : InvW hv t) (k : K) :
    get hv t k = assocLookup t.table.flatten k := by
  rw [get_eq_assoc_home]
  have hlt : getIndex hv t k < t.table.length :=
    getIndexC_lt hv _ k (by have := h.posCap; omega)
  cases hb : assocLookup (t.table.getD (getIndex hv t k) []) k with
  | some v =>
    have hmem : (⟨k, v⟩ : Item K V) ∈ t.table.getD (getIndex hv t k) [] :=
      assocLookup_eq_some_mem _ _ _ hb
    have hmemf : (⟨k, v⟩ : Item K V) ∈ t.table.flatten :=
      (mem_flatten_iff_getD _ _).mpr ⟨_, hlt, hmem⟩
    have := assocLookup_of_mem_nodup t.table.flatten ⟨k, v⟩
      (flattenKeys_nodup hv t h) hmemf
    exact this.symm
  | none =>
    symm
    rw [assocLookup_eq_none_iff] at hb ⊢
    intro it hit he
    obtain ⟨j, hj, hjmem⟩ := (mem_flatten_iff_getD _ _).mp hit
    have hj2 : getIndexC hv t.table.length it.key = j := h.home j it hjmem
    have hji : j = getIndex hv t k := by
      rw [show getIndex hv t k = getIndexC hv t.table.length k from rfl,
        show k = it.key from he.symm, hj2]
    exact hb it (by rwa [hji] at hjmem) he

theorem count_eq_flatten_length (hv : K → Int) (t : HashTable K V)
    (h : InvW hv t) : t.count_items = t.table.flatten.length := by
  rw [List.length_flatten]
  exact h.countEq

theorem invW_congr (hv : K → Int) (t t' : HashTable K V) (h : InvW hv t)
    (hlen : t'.table.length = t.table.length)
    (hkeys : t'.table.map chainKeys = t.table.map chainKeys)
    (hcount : t'.count_items = t.count_items) :
    InvW hv t' := by
  have hck : ∀ j, chainKeys (t'.table.getD j []) = chainKeys (t.table.getD j []) := by
    intro j
    rw [chainKeys_getD, chainKeys_getD, hkeys]
  constructor
  · rw [hlen]; exact h.posCap
  · intro j it hit
    rw [hlen]
    have hk : it.key ∈ chainKeys (t.table.getD j []) := by
      rw [← hck j]
      exact List.mem_map_of_mem Item.key hit
    obtain ⟨it0, hit0, he⟩ := List.mem_map.mp hk
    rw [← he]
    exact h.home j it0 hit0
  · intro j
    rw [hck j]
    exact h.bnodup j
  · have hml : t'.table.map List.length = t.table.map List.length := by
      have h1 : (t'.table.map chainKeys).map List.length
          = (t.table.map chainKeys).map List.length := by rw [hkeys]
      rw [List.map_map, List.map_map] at h1
      have he : (List.length ∘ chainKeys) = (List.length : List (Item K V) → Nat) := by
        funext b
        simp [chainKeys]
      rwa [he] at h1
    rw [hcount, hml]
    exact h.countEq

end InvLemmas

section OpSpecs

variable {K V : Type} [DecidableEq K]

theorem replace_spec (hv : K → Int) (t : HashTable K V) (k : K) (v : V)
    (i s : Nat) (h : InvW hv t) (hf : find hv t k = some (i, s)) :
    InvW hv (replaceValue t i s v) ∧
    (replaceValue t i s v).table.length = t.table.length ∧
    (replaceValue t i s v).count_items = t.count_items ∧
    (replaceValue t i s v).table.map chainKeys = t.table.map chainKeys ∧
    get hv (replaceValue t i s v) k = some v ∧
    (∀ kx, kx ≠ k → get hv (replaceValue t i s v) kx = get hv t kx) := by
  obtain ⟨hi, hsub⟩ := find_eq_some_elim hv t k i s hf
  subst hi
  have hlt : getIndex hv t k < t.table.length :=
    getIndexC_lt hv _ k (by have := h.posCap; omega)
  have hilt : getIndex hv t k < t.table.length := hlt
  have hlen : (replaceValue t (getIndex hv t k) s v).table.length = t.table.length :=
    List.length_set _ _ _
  have hkeys : (replaceValue t (getIndex hv t k) s v).table.map chainKeys
      = t.table.map chainKeys := by
    show (t.table.set (getIndex hv t k) (setValueAt (t.table.getD (getIndex hv t k) []) s v)).map chainKeys
      = t.table.map chainKeys
    rw [List.map_set, chainKeys_setValueAt, chainKeys_getD]
    exact set_getD_self _ _ _ (by simpa using hilt)
  have hginew : getIndex hv (replaceValue t (getIndex hv t k) s v) = getIndex hv t :=
    funext (fun kx => getIndex_congr_len hv t _ kx hlen)
  have hbnew : (replaceValue t (getIndex hv t k) s v).table.getD (getIndex hv t k) []
      = setValueAt (t.table.getD (getIndex hv t k) []) s v := by
    show (t.table.set (getIndex hv t k) (setValueAt (t.table.getD (getIndex hv t k) []) s v)).getD (getIndex hv t k) [] = _
    exact getD_set_self _ _ _ _ hilt
  refine ⟨invW_congr hv t _ h hlen hkeys rfl, hlen, rfl, hkeys, ?_, ?_⟩
  · rw [get_eq_assoc_home, hginew, hbnew]
    exact assocLookup_setValueAt_self _ _ _ _ hsub
  · intro kx hkx
    rw [get_eq_assoc_home, get_eq_assoc_home, hginew]
    by_cases hix : getIndex hv t kx = getIndex hv t k
    · rw [hix, hbnew]
      exact assocLookup_setValueAt_ne _ k kx s v hsub hkx
    · have : (replaceValue t (getIndex hv t k) s v).table.getD (getIndex hv t kx) []
          = t.table.getD (getIndex hv t kx) [] := by
        show (t.table.set (getIndex hv t k) _).getD (getIndex hv t kx) [] = _
        exact getD_set_ne _ _ _ _ _ (fun he => hix he.symm)
      rw [this]

theorem append_spec (hv : K → Int) (t : HashTable K V) (k : K) (v : V)
    (h : InvW hv t) (hnf : find hv t k = none) :
    InvW hv (appendNew hv t k v) ∧
    (appendNew hv t k v).table.length = t.table.length ∧
    (appendNew hv t k v).count_items = t.count_items + 1 ∧
    get hv (appendNew hv t k v) k = some v ∧
    (∀ kx, kx ≠ k → get hv (appendNew hv t k v) kx = get hv t kx) := by
  have hlt : getIndex hv t k < t.table.length :=
    getIndexC_lt hv _ k (by have := h.posCap; omega)
  have hkb : ∀ it ∈ t.table.getD (getIndex hv t k) [], it.key ≠ k := by
    rw [← findSub_eq_none_iff]
    exact (find_eq_none_iff hv t k).mp hnf
  have hlen : (appendNew hv t k v).table.length = t.table.length :=
    List.length_set _ _ _
  have hginew : getIndex hv (appendNew hv t k v) = getIndex hv t :=
    funext (fun kx => getIndex_congr_len hv t _ kx hlen)
  have hbnew : (appendNew hv t k v).table.getD (getIndex hv t k) []
      = (t.table.getD (getIndex hv t k) []) ++ [⟨k, v⟩] := by
    show (t.table.set (getIndex hv t k) _).getD (getIndex hv t k) [] = _
    exact getD_set_self _ _ _ _ hlt
  have hbold : ∀ j, j ≠ getIndex hv t k →
      (appendNew hv t k v).table.getD j [] = t.table.getD j [] := by
    intro j hj
    show (t.table.set (getIndex hv t k) _).getD j [] = _
    exact getD_set_ne _ _ _ _ _ (fun he => hj he.symm)
  refine ⟨⟨?_, ?_, ?_, ?_⟩, hlen, rfl, ?_, ?_⟩
  · rw [hlen]; exact h.posCap
  · intro j it hit
    rw [hlen]
    by_cases hj : j = getIndex hv t k
    · subst hj
      rw [hbnew] at hit
      rcases List.mem_append.mp hit with hold | hnewit
      · exact h.home _ it hold
      · have : it = (⟨k, v⟩ : Item K V) := by simpa using hnewit
        rw [this]
        rfl
    · rw [hbold j hj] at hit
      exact h.home j it hit
  · intro j
    by_cases hj : j = getIndex hv t k
    · subst hj
      rw [hbnew]
      have : chainKeys ((t.table.getD (getIndex hv t k) []) ++ [⟨k, v⟩])
          = chainKeys (t.table.getD (getIndex hv t k) []) ++ [k] := by
        simp [chainKeys]
      rw [this, List.nodup_append]
      refine ⟨h.bnodup _, List.nodup_singleton _, ?_⟩
      intro a ha hb
      have hak : a = k := by simpa using hb
      obtain ⟨it0, hit0, he0⟩ := List.mem_map.mp ha
      exact hkb it0 hit0 (by rw [he0, hak])
    · rw [hbold j hj]
      exact h.bnodup j
  · show t.count_items + 1
      = ((t.table.set (getIndex hv t k)
          ((t.table.getD (getIndex hv t k) []) ++ [⟨k, v⟩])).map List.length).sum
    have hs := sum_map_length_set t.table (getIndex hv t k)
      ((t.table.getD (getIndex hv t k) []) ++ [⟨k, v⟩]) hlt
    have hc := h.countEq
    rw [List.length_append] at hs
    simp only [List.length_cons, List.length_nil] at hs
    omega
  · rw [get_eq_assoc_home, hginew, hbnew, assocLookup_append]
    have : assocLookup (t.table.getD (getIndex hv t k) []) k = none :=
      (assocLookup_eq_none_iff _ _).mpr hkb
    rw [this]
    simp [assocLookup]
  · intro kx hkx
    rw [get_eq_assoc_home, get_eq_assoc_home, hginew]
    by_cases hix : getIndex hv t kx = getIndex hv t k
    · rw [hix, hbnew, assocLookup_append]
      have hsing : assocLookup [(⟨k, v⟩ : Item K V)] kx = none := by
        simp [assocLookup]
        intro he
        exact absurd he.symm hkx
      cases ha : assocLookup (t.table.getD (getIndex hv t k) []) kx <;>
        simp [ha, hsing, hix]
    · rw [hbold _ hix]

theorem updateNo_spec (hv : K → Int) (t : HashTable K V) (k : K) (v : V)
    (h : InvW hv t) :
    InvW hv (updateNoResize hv t k v) ∧
    (updateNoResize hv t k v).table.length = t.table.length ∧
    (updateNoResize hv t k v).count_items
      = (if (get hv t k).isSome then t.count_items else t.count_items + 1) ∧
    get hv (updateNoResize hv t k v) k = some v ∧
    (∀ kx, kx ≠ k → get hv (updateNoResize hv t k v) kx = get hv t kx) := by
  cases hf : find hv t k with
  | none =>
    have hs := append_spec hv t k v h hf
    have hget : get hv t k = none := (get_eq_none_iff_find hv t k).mpr hf
    have hun : updateNoResize hv t k v = appendNew hv t k v := by
      unfold updateNoResize
      rw [hf]
    rw [hun, hget]
    exact ⟨hs.1, hs.2.1, by simp [hs.2.2.1], hs.2.2.2.1, hs.2.2.2.2⟩
  | some p =>
    obtain ⟨i, s⟩ := p
    have hs := replace_spec hv t k v i s h hf
    have hget : (get hv t k).isSome = true := get_isSome_of_find hv t k i s hf
    have hun : updateNoResize hv t k v = replaceValue t i s v := by
      unfold updateNoResize
      rw [hf]
    rw [hun]
    exact ⟨hs.1, hs.2.1, by simp [hget, hs.2.2.1], hs.2.2.2.2.1, hs.2.2.2.2.2⟩

theorem length_updateNoResize (hv : K → Int) (t : HashTable K V) (k : K)
    (v : V) : (updateNoResize hv t k v).table.length = t.table.length := by
  unfold updateNoResize
  cases hf : find hv t k with
  | none => simp [appendNew]
  | some p =>
    obtain ⟨i, s⟩ := p
    simp [replaceValue]

theorem length_foldl_updateNo (hv : K → Int) (l : List (Item K V))
    (acc : HashTable K V) :
    (l.foldl (fun a it => updateNoResize hv a it.key it.value) acc).table.length
      = acc.table.length := by
  induction l generalizing acc with
  | nil => rfl
  | cons it rest ih => rw [List.foldl_cons, ih, length_updateNoResize]

theorem length_rehash (hv : K → Int) (n : Nat)
    (old : List (List (Item K V))) : (rehash hv n old).table.length = n := by
  unfold rehash
  rw [length_foldl_updateNo]
  simp

theorem rehash_fold (hv : K → Int) (l : List (Item K V)) (acc : HashTable K V)
    (hacc : InvW hv acc) (hnd : (chainKeys l).Nodup)
    (hfresh : ∀ it ∈ l, get hv acc it.key = none) :
    InvW hv (l.foldl (fun a it => updateNoResize hv a it.key it.value) acc) ∧
    (l.foldl (fun a it => updateNoResize hv a it.key it.value) acc).count_items
      = acc.count_items + l.length ∧
    (∀ k, get hv (l.foldl (fun a it => updateNoResize hv a it.key it.value) acc) k
      = match assocLookup l k with
        | some v => some v
        | none => get hv acc k) := by
  induction l generalizing acc with
  | nil => exact ⟨hacc, rfl, fun k => rfl⟩
  | cons it rest ih =>
    rw [chainKeys_cons, List.nodup_cons] at hnd
    have hfit : get hv acc it.key = none := hfresh it (List.mem_cons_self _ _)
    have hsp := updateNo_spec hv acc it.key it.value hacc
    have hc1 : (updateNoResize hv acc it.key it.value).count_items
        = acc.count_items + 1 := by
      have hcc := hsp.2.2.1
      rw [hfit] at hcc
      simpa using hcc
    have hfresh1 : ∀ it2 ∈ rest, get hv (updateNoResize hv acc it.key it.value) it2.key = none := by
      intro it2 h2
      have hne : it2.key ≠ it.key := by
        intro he
        exact hnd.1 (by rw [← he]; exact List.mem_map_of_mem Item.key h2)
      rw [hsp.2.2.2.2 it2.key hne]
      exact hfresh it2 (List.mem_cons_of_mem _ h2)
    have hih := ih (updateNoResize hv acc it.key it.value) hsp.1 hnd.2 hfresh1
    rw [List.foldl_cons]
    refine ⟨hih.1, ?_, ?_⟩
    · rw [hih.2.1, hc1]
      simp [List.length_cons]
      omega
    · intro k
      rw [hih.2.2 k]
      by_cases hk : k = it.key
      · subst hk
        have hrest : assocLookup rest it.key = none := by
          rw [assocLookup_eq_none_iff]
          intro it2 h2 he
          exact hnd.1 (by rw [← he]; exact List.mem_map_of_mem Item.key h2)
        rw [hrest]
        have hhd : assocLookup (it :: rest) it.key = some it.value := by
          simp [assocLookup]
        rw [hhd]
        exact hsp.2.2.2.1
      · have hk2 : ¬ (it.key = k) := fun he => hk he.symm
        have hhd : assocLookup (it :: rest) k = assocLookup rest k := by
          simp [assocLookup, hk2]
        rw [hhd]
        cases ha : assocLookup rest k with
        | some w => rfl
        | none => exact hsp.2.2.2.2 k hk


theorem invW_fresh (hv : K → Int) (n : Nat) (hn : 1 ≤ n) :
    InvW hv (⟨List.replicate n [], 0⟩ : HashTable K V) := by
  constructor
  · simpa using hn
  · intro j it hit
    rw [show (⟨List.replicate n [], 0⟩ : HashTable K V).table
        = List.replicate n ([] : List (Item K V)) from rfl] at hit
    rw [getD_replicate_nil] at hit
    simp at hit
  · intro j
    rw [show (⟨List.replicate n [], 0⟩ : HashTable K V).table
        = List.replicate n ([] : List (Item K V)) from rfl]
    rw [getD_replicate_nil]
    simp [chainKeys]
  · simp

theorem get_fresh (hv : K → Int) (n : Nat) (k : K) :
    get hv (⟨List.replicate n [], 0⟩ : HashTable K V) k = none := by
  rw [get_eq_assoc_home]
  rw [show (⟨List.replicate n [], 0⟩ : HashTable K V).table
      = List.replicate n ([] : List (Item K V)) from rfl]
  rw [getD_replicate_nil]
  rfl

theorem rehash_spec (hv : K → Int) (t : HashTable K V) (h : InvW hv t)
    (n : Nat) (hn : 1 ≤ n) :
    InvW hv (rehash hv n t.table) ∧
    (rehash hv n t.table).table.length = n ∧
    (rehash hv n t.table).count_items = t.count_items ∧
    (∀ k, get hv (rehash hv n t.table) k = get hv t k) := by
  have hfold := rehash_fold hv t.table.flatten
    (⟨List.replicate n [], 0⟩ : HashTable K V)
    (invW_fresh hv n hn) (flattenKeys_nodup hv t h)
    (fun it _ => get_fresh hv n it.key)
  have hr : rehash hv n t.table
      = t.table.flatten.foldl (fun a it => updateNoResize hv a it.key it.value)
        (⟨List.replicate n [], 0⟩ : HashTable K V) := rfl
  rw [hr]
  refine ⟨hfold.1, ?_, ?_, ?_⟩
  · rw [← hr, length_rehash]
  · rw [hfold.2.1, count_eq_flatten_length hv t h]
    simp
  · intro k
    rw [hfold.2.2 k, ← get_eq_assoc_flatten hv t h k]
    cases hg : get hv t k with
    | some v => rfl
    | none => exact get_fresh hv n k

theorem resize_spec (hv : K → Int) (t : HashTable K V) (h : InvW hv t)
    (hc : 2 ≤ t.table.length ∨ 1 ≤ t.count_items) :
    Inv hv (resize hv t) ∧
    (resize hv t).count_items = t.count_items ∧
    (∀ k, get hv (resize hv t) k = get hv t k) := by
  have hpos := h.posCap
  have hmul : RESIZE_MUL = 2 := rfl
  have hru : resize hv t =
      (if t.count_items * RESIZE_MUL > t.table.length then
        rehash hv (t.table.length * RESIZE_MUL) t.table
      else if t.count_items * RESIZE_MUL * RESIZE_MUL < t.table.length then
        rehash hv (t.table.length / RESIZE_MUL) t.table
      else t) := rfl
  by_cases hg : t.count_items * RESIZE_MUL > t.table.length
  · have hn : 1 ≤ t.table.length * RESIZE_MUL := by rw [hmul]; omega
    have hrs := rehash_spec hv t h (t.table.length * RESIZE_MUL) hn
    have he : resize hv t = rehash hv (t.table.length * RESIZE_MUL) t.table := by
      rw [hru, if_pos hg]
    rw [he]
    refine ⟨⟨hrs.1, ?_⟩, hrs.2.2.1, hrs.2.2.2⟩
    intro h1
    rw [hrs.2.1] at h1
    rw [hmul] at h1
    omega
  · by_cases hs : t.count_items * RESIZE_MUL * RESIZE_MUL < t.table.length
    · have hlen2 : 2 ≤ t.table.length := by
        rcases hc with hc2 | hc1
        · exact hc2
        · rw [hmul] at hs
          omega
      have hn : 1 ≤ t.table.length / RESIZE_MUL := by rw [hmul]; omega
      have hrs := rehash_spec hv t h (t.table.length / RESIZE_MUL) hn
      have he : resize hv t = rehash hv (t.table.length / RESIZE_MUL) t.table := by
        rw [hru, if_neg hg, if_pos hs]
      rw [he]
      refine ⟨⟨hrs.1, ?_⟩, hrs.2.2.1, hrs.2.2.2⟩
      intro h1
      rw [hrs.2.1] at h1
      rw [hmul] at h1 hs
      rw [hrs.2.2.1]
      omega
    · have he : resize hv t = t := by
        rw [hru, if_neg hg, if_neg hs]
      rw [he]
      refine ⟨⟨h, ?_⟩, rfl, fun k => rfl⟩
      intro h1
      rw [hmul] at hg
      omega

theorem update_spec (hv : K → Int) (t : HashTable K V) (k : K) (v : V)
    (h : Inv hv t) :
    Inv hv (update hv t k v) ∧
    get hv (update hv t k v) k = some v ∧
    (∀ kx, kx ≠ k → get hv (update hv t k v) kx = get hv t kx) ∧
    (update hv t k v).count_items
      = (if (get hv t k).isSome then t.count_items else t.count_items + 1) := by
  obtain ⟨hw, hone⟩ := h
  cases hf : find hv t k with
  | some p =>
    obtain ⟨i, s⟩ := p
    have hs := replace_spec hv t k v i s hw hf
    have hu : update hv t k v = replaceValue t i s v := by
      unfold update
      rw [hf]
    have hget : (get hv t k).isSome = true := get_isSome_of_find hv t k i s hf
    rw [hu]
    refine ⟨⟨hs.1, ?_⟩, hs.2.2.2.2.1, hs.2.2.2.2.2, ?_⟩
    · intro h1
      rw [hs.2.1] at h1
      rw [hs.2.2.1]
      exact hone h1
    · simp [hget, hs.2.2.1]
  | none =>
    have ha := append_spec hv t k v hw hf
    have hu : update hv t k v = resize hv (appendNew hv t k v) := by
      unfold update
      rw [hf]
    have hc2 : 2 ≤ (appendNew hv t k v).table.length
        ∨ 1 ≤ (appendNew hv t k v).count_items := by
      right
      rw [ha.2.2.1]
      omega
    have hr := resize_spec hv (appendNew hv t k v) ha.1 hc2
    have hget : get hv t k = none := (get_eq_none_iff_find hv t k).mpr hf
    rw [hu]
    refine ⟨hr.1, ?_, ?_, ?_⟩
    · rw [hr.2.2 k, ha.2.2.2.1]
    · intro kx hkx
      rw [hr.2.2 kx, ha.2.2.2.2 kx hkx]
    · rw [hr.2.1, ha.2.2.1]
      simp [hget]

theorem le_sum_of_mem_nat (l : List Nat) (x : Nat) (h : x ∈ l) : x ≤ l.sum := by
  induction l with
  | nil => simp at h
  | cons y ys ih =>
    rcases List.mem_cons.mp h with rfl | hm
    · simp [List.sum_cons]
    · have := ih hm
      simp [List.sum_cons]
      omega

theorem count_pos_of_find (hv : K → Int) (t : HashTable K V) (k : K)
    (s : Nat) (hw : InvW hv t)
    (hsub : findSub (t.table.getD (getIndex hv t k) []) k = some s) :
    1 ≤ t.count_items := by
  have hlt : getIndex hv t k < t.table.length :=
    getIndexC_lt hv _ k (by have := hw.posCap; omega)
  have hslt : s < (t.table.getD (getIndex hv t k) []).length :=
    findSub_lt_length _ _ _ hsub
  have hbmem : (t.table.getD (getIndex hv t k) []).length
      ∈ t.table.map List.length := by
    rw [getD_eq_getElem _ _ _ hlt]
    exact List.mem_map_of_mem List.length (t.table.getElem_mem hlt)
  have h1 := le_sum_of_mem_nat _ _ hbmem
  have h2 := hw.countEq
  omega

theorem removeAt_spec (hv : K → Int) (t : HashTable K V) (k : K) (s : Nat)
    (hw : InvW hv t)
    (hsub : findSub (t.table.getD (getIndex hv t k) []) k = some s) :
    InvW hv (removeAt t (getIndex hv t k) s) ∧
    (removeAt t (getIndex hv t k) s).table.length = t.table.length ∧
    (removeAt t (getIndex hv t k) s).count_items = t.count_items - 1 ∧
    get hv (removeAt t (getIndex hv t k) s) k = none ∧
    (∀ kx, kx ≠ k →
      get hv (removeAt t (getIndex hv t k) s) kx = get hv t kx) := by
  have hlt : getIndex hv t k < t.table.length :=
    getIndexC_lt hv _ k (by have := hw.posCap; omega)
  have hslt : s < (t.table.getD (getIndex hv t k) []).length :=
    findSub_lt_length _ _ _ hsub
  have hcge : 1 ≤ t.count_items := count_pos_of_find hv t k s hw hsub
  have hlen : (removeAt t (getIndex hv t k) s).table.length = t.table.length :=
    List.length_set _ _ _
  have hginew : getIndex hv (removeAt t (getIndex hv t k) s) = getIndex hv t :=
    funext (fun kx => getIndex_congr_len hv t _ kx hlen)
  have hbnew : (removeAt t (getIndex hv t k) s).table.getD (getIndex hv t k) []
      = (t.table.getD (getIndex hv t k) []).eraseIdx s := by
    show (t.table.set (getIndex hv t k) _).getD (getIndex hv t k) [] = _
    exact getD_set_self _ _ _ _ hlt
  have hbold : ∀ j, j ≠ getIndex hv t k →
      (removeAt t (getIndex hv t k) s).table.getD j [] = t.table.getD j [] := by
    intro j hj
    show (t.table.set (getIndex hv t k) _).getD j [] = _
    exact getD_set_ne _ _ _ _ _ (fun he => hj he.symm)
  refine ⟨⟨?_, ?_, ?_, ?_⟩, hlen, rfl, ?_, ?_⟩
  · rw [hlen]
    exact hw.posCap
  · intro j it hit
    rw [hlen]
    by_cases hj : j = getIndex hv t k
    · subst hj
      rw [hbnew] at hit
      exact hw.home _ it ((List.eraseIdx_sublist _ s).subset hit)
    · rw [hbold j hj] at hit
      exact hw.home j it hit
  · intro j
    by_cases hj : j = getIndex hv t k
    · subst hj
      rw [hbnew]
      exact List.Nodup.sublist
        ((List.eraseIdx_sublist _ s).map Item.key) (hw.bnodup _)
    · rw [hbold j hj]
      exact hw.bnodup j
  · show t.count_items - 1
      = ((t.table.set (getIndex hv t k)
          ((t.table.getD (getIndex hv t k) []).eraseIdx s)).map List.length).sum
    have hs := sum_map_length_set t.table (getIndex hv t k)
      ((t.table.getD (getIndex hv t k) []).eraseIdx s) hlt
    rw [List.length_eraseIdx, if_pos hslt] at hs
    have hc := hw.countEq
    omega
  · rw [get_eq_assoc_home, hginew, hbnew]
    exact assocLookup_eraseIdx_self _ _ _ hsub (hw.bnodup _)
  · intro kx hkx
    rw [get_eq_assoc_home, get_eq_assoc_home, hginew]
    by_cases hix : getIndex hv t kx = getIndex hv t k
    · rw [hix, hbnew]
      exact assocLookup_eraseIdx_ne _ k kx s hsub hkx
    · rw [hbold _ hix]

theorem delete_ok_spec (hv : K → Int) (t : HashTable K V) (k : K)
    (h : Inv hv t) (t' : HashTable K V)
    (hd : delete hv t k = Except.ok t') :
    Inv hv t' ∧ get hv t' k = none ∧
    (∀ kx, kx ≠ k → get hv t' kx = get hv t kx) ∧
    t'.count_items = t.count_items - 1 ∧ 1 ≤ t.count_items := by
  obtain ⟨hw, hone⟩ := h
  cases hf : find hv t k with
  | none =>
    have hdd : delete hv t k = Except.error t := by
      unfold delete
      rw [hf]
    rw [hdd] at hd
    simp at hd
  | some p =>
    obtain ⟨i, s⟩ := p
    obtain ⟨hi, hsub⟩ := find_eq_some_elim hv t k i s hf
    subst hi
    have hrs := removeAt_spec hv t k s hw hsub
    have hcge : 1 ≤ t.count_items := count_pos_of_find hv t k s hw hsub
    have hlen2 : 2 ≤ t.table.length := by
      have hp := hw.posCap
      by_cases hl1 : t.table.length = 1
      · have := hone hl1
        omega
      · omega
    have hc2 : 2 ≤ (removeAt t (getIndex hv t k) s).table.length
        ∨ 1 ≤ (removeAt t (getIndex hv t k) s).count_items := by
      left
      rw [hrs.2.1]
      exact hlen2
    have hr := resize_spec hv (removeAt t (getIndex hv t k) s) hrs.1 hc2
    have hdd : delete hv t k
        = Except.ok (resize hv (removeAt t (getIndex hv t k) s)) := by
      unfold delete
      rw [hf]
    rw [hdd] at hd
    have ht' : t' = resize hv (removeAt t (getIndex hv t k) s) := by
      simpa using hd.symm
    subst ht'
    refine ⟨hr.1, ?_, ?_, ?_, hcge⟩
    · rw [hr.2.2 k, hrs.2.2.2.1]
    · intro kx hkx
      rw [hr.2.2 kx, hrs.2.2.2.2 kx hkx]
    · rw [hr.2.1, hrs.2.2.1]

theorem delete_eq_error_elim (hv : K → Int) (t : HashTable K V) (k : K)
    (e : HashTable K V) (hd : delete hv t k = Except.error e) :
    e = t ∧ get hv t k = none := by
  cases hf : find hv t k with
  | none =>
    have hdd : delete hv t k = Except.error t := by
      unfold delete
      rw [hf]
    rw [hdd] at hd
    refine ⟨by simpa using hd.symm, (get_eq_none_iff_find hv t k).mpr hf⟩
  | some p =>
    obtain ⟨i, s⟩ := p
    have hdd : delete hv t k
        = Except.ok (resize hv (removeAt t i s)) := by
      unfold delete
      rw [hf]
    rw [hdd] at hd
    simp at hd

theorem delete_isOk_iff (hv : K → Int) (t : HashTable K V) (k : K) :
    (delete hv t k).isOk = true ↔ (get hv t k).isSome = true := by
  cases hf : find hv t k with
  | none =>
    have h1 : delete hv t k = Except.error t := by
      unfold delete
      rw [hf]
    have h2 : get hv t k = none := (get_eq_none_iff_find hv t k).mpr hf
    rw [h1, h2]
    simp [Except.isOk, Except.toBool]
  | some p =>
    obtain ⟨i, s⟩ := p
    have h2 := get_isSome_of_find hv t k i s hf
    rw [h2]
    have h1 : delete hv t k
        = Except.ok (resize hv (removeAt t i s)) := by
      unfold delete
      rw [hf]
    rw [h1]
    simp [Except.isOk, Except.toBool]

theorem inv_empty (hv : K → Int) : Inv hv (HashTable.empty K V) := by
  refine ⟨invW_fresh hv INITIAL_SIZE (by rw [show INITIAL_SIZE = 4 from rfl]; omega), ?_⟩
  intro h1
  rw [show (HashTable.empty K V).table.length
      = (List.replicate INITIAL_SIZE ([] : List (Item K V))).length from rfl] at h1
  simp [INITIAL_SIZE] at h1

theorem get_empty (hv : K → Int) (k : K) :
    get hv (HashTable.empty K V) k = none :=
  get_fresh hv INITIAL_SIZE k

theorem reachable_inv (hv : K → Int) (t : HashTable K V)
    (h : Reachable hv t) : Inv hv t := by
  induction h with
  | empty => exact inv_empty hv
  | set t0 k v _ ih => exact (update_spec hv t0 k v ih).1
  | del t0 k t' _ hd ih => exact (delete_ok_spec hv t0 k ih t' hd).1

end OpSpecs

section DerivedLemmas

variable {K V : Type} [DecidableEq K]

theorem build_fold (hv : K → Int) (ps : List (K × V)) (t : HashTable K V)
    (h : Inv hv t) :
    Inv hv (ps.foldl (fun acc p => update hv acc p.1 p.2) t) ∧
    (∀ k, get hv (ps.foldl (fun acc p => update hv acc p.1 p.2) t) k
      = match lastWrite ps k with
        | some v => some v
        | none => get hv t k) := by
  induction ps generalizing t with
  | nil => exact ⟨h, fun k => rfl⟩
  | cons p ps ih =>
    have hu := update_spec hv t p.1 p.2 h
    have hih := ih (update hv t p.1 p.2) hu.1
    rw [List.foldl_cons]
    refine ⟨hih.1, ?_⟩
    intro k
    rw [hih.2 k]
    cases hl : lastWrite ps k with
    | some w =>
      have h2 : lastWrite (p :: ps) k = some w := by
        show (match lastWrite ps k with
              | some v => some v
              | none => if p.1 = k then some p.2 else none) = some w
        rw [hl]
      rw [h2]
    | none =>
      by_cases hk : p.1 = k
      · have h2 : lastWrite (p :: ps) k = some p.2 := by
          show (match lastWrite ps k with
                | some v => some v
                | none => if p.1 = k then some p.2 else none) = some p.2
          rw [hl]
          simp [hk]
        rw [h2]
        rw [show k = p.1 from hk.symm]
        exact hu.2.1
      · have h2 : lastWrite (p :: ps) k = none := by
          show (match lastWrite ps k with
                | some v => some v
                | none => if p.1 = k then some p.2 else none) = none
          rw [hl]
          simp [hk]
        rw [h2]
        exact hu.2.2.1 k (fun he => hk he.symm)

theorem lastWrite_isSome_iff (ps : List (K × V)) (k : K) :
    (lastWrite ps k).isSome = true ↔ k ∈ ps.map Prod.fst := by
  induction ps with
  | nil => simp [lastWrite]
  | cons p ps ih =>
    simp only [lastWrite, List.map_cons, List.mem_cons]
    cases hl : lastWrite ps k with
    | some w =>
      constructor
      · intro _
        right
        rw [← ih, hl]
        rfl
      · intro _
        rfl
    | none =>
      by_cases hk : p.1 = k
      · simp [hk]
      · have h1 : ¬ k ∈ ps.map Prod.fst := by
          rw [← ih, hl]
          simp
        have h2 : ¬ (k = p.1) := fun he => hk he.symm
        simp [hk, h1, h2]

theorem lastWrite_of_nodup (ps : List (K × V)) (p : K × V)
    (hnd : (ps.map Prod.fst).Nodup) (hm : p ∈ ps) :
    lastWrite ps p.1 = some p.2 := by
  induction ps with
  | nil => simp at hm
  | cons q ps ih =>
    rw [List.map_cons, List.nodup_cons] at hnd
    simp only [lastWrite]
    rcases List.mem_cons.mp hm with rfl | hm2
    · have hn : lastWrite ps p.1 = none := by
        cases hl : lastWrite ps p.1 with
        | none => rfl
        | some w =>
          exfalso
          apply hnd.1
          rw [← lastWrite_isSome_iff, hl]
          rfl
      rw [hn]
      simp
    · rw [ih hnd.2 hm2]

theorem build_count_nodup (hv : K → Int) (ps : List (K × V))
    (t : HashTable K V) (h : Inv hv t) (hnd : (ps.map Prod.fst).Nodup)
    (hfresh : ∀ p ∈ ps, get hv t p.1 = none) :
    (ps.foldl (fun acc p => update hv acc p.1 p.2) t).count_items
      = t.count_items + ps.length := by
  induction ps generalizing t with
  | nil => rfl
  | cons p ps ih =>
    rw [List.map_cons, List.nodup_cons] at hnd
    have hu := update_spec hv t p.1 p.2 h
    have hfp : get hv t p.1 = none := hfresh p (List.mem_cons_self _ _)
    have hc1 : (update hv t p.1 p.2).count_items = t.count_items + 1 := by
      have hcc := hu.2.2.2
      rw [hfp] at hcc
      simpa using hcc
    have hfresh1 : ∀ q ∈ ps, get hv (update hv t p.1 p.2) q.1 = none := by
      intro q hq
      have hne : q.1 ≠ p.1 := by
        intro he
        exact hnd.1 (by rw [← he]; exact List.mem_map_of_mem Prod.fst hq)
      rw [hu.2.2.1 q.1 hne]
      exact hfresh q (List.mem_cons_of_mem _ hq)
    rw [List.foldl_cons, ih (update hv t p.1 p.2) hu.1 hnd.2 hfresh1, hc1]
    simp [List.length_cons]
    omega

theorem items_map_fst (t : HashTable K V) :
    (items t).map Prod.fst = chainKeys t.table.flatten := by
  unfold items chainKeys
  rw [List.map_map]
  rfl

theorem items_length_eq_count (hv : K → Int) (t : HashTable K V)
    (h : InvW hv t) : (items t).length = t.count_items := by
  unfold items
  rw [List.length_map, ← count_eq_flatten_length hv t h]

theorem items_keys_nodup (hv : K → Int) (t : HashTable K V) (h : InvW hv t) :
    ((items t).map Prod.fst).Nodup := by
  rw [items_map_fst]
  exact flattenKeys_nodup hv t h

theorem mem_items_iff_get (hv : K → Int) (t : HashTable K V) (h : InvW hv t)
    (k : K) (v : V) : (k, v) ∈ items t ↔ get hv t k = some v := by
  rw [get_eq_assoc_flatten hv t h]
  constructor
  · intro hm
    obtain ⟨it, hit, he⟩ := List.mem_map.mp hm
    have hk : it.key = k := congrArg Prod.fst he
    have hvv : it.value = v := congrArg Prod.snd he
    rw [← hk, ← hvv]
    exact assocLookup_of_mem_nodup _ it (flattenKeys_nodup hv t h) hit
  · intro hg
    have hm := assocLookup_eq_some_mem _ _ _ hg
    exact List.mem_map.mpr ⟨⟨k, v⟩, hm, rfl⟩

theorem get_isSome_iff_mem_keys (hv : K → Int) (t : HashTable K V)
    (h : InvW hv t) (k : K) :
    (get hv t k).isSome = true ↔ k ∈ (items t).map Prod.fst := by
  rw [items_map_fst, get_eq_assoc_flatten hv t h]
  exact assocLookup_isSome_iff _ _

theorem resize_preserves_reachable (hv : K → Int) (t : HashTable K V)
    (h : Reachable hv t) :
    (resize hv t).count_items = t.count_items ∧
    (∀ k, get hv (resize hv t) k = get hv t k) := by
  obtain ⟨hw, hone⟩ := reachable_inv hv t h
  by_cases hc : 2 ≤ t.table.length ∨ 1 ≤ t.count_items
  · have hr := resize_spec hv t hw hc
    exact ⟨hr.2.1, hr.2.2⟩
  · push_neg at hc
    have hl1 : t.table.length = 1 := by
      have := hw.posCap
      omega
    have hc0 : t.count_items = 0 := by omega
    have hsh : resize hv t = rehash hv (t.table.length / RESIZE_MUL) t.table := by
      have hru : resize hv t =
          (if t.count_items * RESIZE_MUL > t.table.length then
            rehash hv (t.table.length * RESIZE_MUL) t.table
          else if t.count_items * RESIZE_MUL * RESIZE_MUL < t.table.length then
            rehash hv (t.table.length / RESIZE_MUL) t.table
          else t) := rfl
      rw [hru, hc0, hl1]
      norm_num [RESIZE_MUL]
    have hfl : t.table.flatten = [] := by
      have h1 : t.table.flatten.length = 0 := by
        rw [List.length_flatten, ← hw.countEq, hc0]
      exact List.length_eq_zero.mp h1
    have hre : rehash hv (t.table.length / RESIZE_MUL) t.table
        = (⟨List.replicate (t.table.length / RESIZE_MUL) [], 0⟩
            : HashTable K V) := by
      unfold rehash
      rw [hfl]
      rfl
    constructor
    · rw [hsh, hre, hc0]
    · intro k
      rw [hsh, hre, get_fresh hv _ k]
      symm
      rw [get_eq_assoc_flatten hv t hw, hfl]
      rfl

end DerivedLemmas

section Claims

variable {K V : Type} [DecidableEq K]

/-- C1: for every key `k` and value `v`, calling `set(k, v)` and then `get(k)`
on the resulting container returns `v`, regardless of the container's prior
contents (any state reachable by set/get/delete from construction). -/
theorem C1_set_get_roundtrip (hv : K → Int) (t : HashTable K V) (k : K)
    (v : V) (h : Reachable hv t) :
    get hv (update hv t k v) k = some v :=
  (update_spec hv t k v (reachable_inv hv t h)).2.1

theorem C1_witness :
    get natHash (update natHash (HashTable.empty Nat Nat) 0 5) 0 = some 5 :=
  C1_set_get_roundtrip natHash (HashTable.empty Nat Nat) 0 5 Reachable.empty

/-- C2: inserting any number of distinct keys into a fresh container, every
subsequent get of an inserted key returns its value and `len()` equals the
number of inserts — the resize events on the way lose and duplicate nothing —
and a resize of any reachable state preserves the count (and the contents). -/
theorem C2_resize_transparency (hv : K → Int) (ps : List (K × V))
    (hnd : (ps.map Prod.fst).Nodup) :
    (∀ p ∈ ps, get hv (build hv ps) p.1 = some p.2) ∧
    len (build hv ps) = ps.length ∧
    (∀ t : HashTable K V, Reachable hv t →
      (resize hv t).count_items = t.count_items ∧
      (∀ k, get hv (resize hv t) k = get hv t k)) := by
  have hb : build hv ps
      = ps.foldl (fun acc p => update hv acc p.1 p.2) (HashTable.empty K V) :=
    rfl
  have hf := build_fold hv ps (HashTable.empty K V) (inv_empty hv)
  refine ⟨?_, ?_, ?_⟩
  · intro p hp
    rw [hb, hf.2 p.1, lastWrite_of_nodup ps p hnd hp]
  · show (build hv ps).count_items = ps.length
    rw [hb, build_count_nodup hv ps (HashTable.empty K V) (inv_empty hv) hnd
      (fun p _ => get_empty hv p.1)]
    show (0 : Nat) + ps.length = ps.length
    omega
  · intro t ht
    exact resize_preserves_reachable hv t ht

theorem C2_witness :
    (([((0 : Nat), (10 : Nat)), (1, 11)].map Prod.fst).Nodup) ∧
    (∀ p ∈ [((0 : Nat), (10 : Nat)), (1, 11)],
      get natHash (build natHash [((0 : Nat), (10 : Nat)), (1, 11)]) p.1
        = some p.2) ∧
    len (build natHash [((0 : Nat), (10 : Nat)), (1, 11)]) = 2 := by
  have h := C2_resize_transparency natHash
    [((0 : Nat), (10 : Nat)), (1, 11)] (by decide)
  exact ⟨by decide, h.1, h.2.1⟩

/-- C3: the resize check after a structural mutation grows to `C * 2` when
`N * 2 > C`, else shrinks to `C / 2` (integer division) when `N * 4 < C`,
else leaves the table untouched; grow is checked first, so at most one of the
two applies in one check. -/
theorem C3_resize_policy (hv : K → Int) (t : HashTable K V) :
    (resize hv t).table.length =
      (if t.count_items * 2 > t.table.length then t.table.length * 2
       else if t.count_items * 4 < t.table.length then t.table.length / 2
       else t.table.length) ∧
    (¬ t.count_items * 2 > t.table.length →
      ¬ t.count_items * 4 < t.table.length →
      resize hv t = t) := by
  have hru : resize hv t =
      (if t.count_items * RESIZE_MUL > t.table.length then
        rehash hv (t.table.length * RESIZE_MUL) t.table
      else if t.count_items * RESIZE_MUL * RESIZE_MUL < t.table.length then
        rehash hv (t.table.length / RESIZE_MUL) t.table
      else t) := rfl
  have hmul : RESIZE_MUL = 2 := rfl
  have h4 : t.count_items * 2 * 2 = t.count_items * 4 := by omega
  rw [hru, hmul, h4]
  constructor
  · by_cases hg : t.count_items * 2 > t.table.length
    · rw [if_pos hg, if_pos hg, length_rehash]
    · rw [if_neg hg, if_neg hg]
      by_cases hs : t.count_items * 4 < t.table.length
      · rw [if_pos hs, if_pos hs, length_rehash]
      · rw [if_neg hs, if_neg hs]
  · intro h1 h2
    rw [if_neg h1, if_neg h2]

theorem C3_witness :
    (resize natHash (update natHash (HashTable.empty Nat Nat) 0 0)).table.length
      = (update natHash (HashTable.empty Nat Nat) 0 0).table.length ∧
    resize natHash (update natHash (HashTable.empty Nat Nat) 0 0)
      = update natHash (HashTable.empty Nat Nat) 0 0 := by
  constructor
  · have h :=
      (C3_resize_policy natHash (update natHash (HashTable.empty Nat Nat) 0 0)).1
    rw [h]
    decide
  · exact (C3_resize_policy natHash
      (update natHash (HashTable.empty Nat Nat) 0 0)).2 (by decide) (by decide)

/-- C4: `get` and `delete` fail with KeyNotFound exactly when no stored
entry's key equals the probe key; a present key's get returns the stored
value; a successful delete removes exactly that entry (the key becomes
absent, every other key's binding is untouched); and after `set(k, v)`
followed by `delete(k)`, a `get(k)` fails. -/
theorem C4_keynotfound (hv : K → Int) (t : HashTable K V) (k : K)
    (h : Reachable hv t) :
    (get hv t k = none ↔ ∀ p ∈ items t, p.1 ≠ k) ∧
    ((delete hv t k).isOk = false ↔ ∀ p ∈ items t, p.1 ≠ k) ∧
    (∀ p ∈ items t, p.1 = k → get hv t k = some p.2) ∧
    (∀ t', delete hv t k = Except.ok t' →
      get hv t' k = none ∧
      (∀ kx, kx ≠ k → get hv t' kx = get hv t kx) ∧
      t'.count_items = t.count_items - 1) ∧
    (∀ v t', delete hv (update hv t k v) k = Except.ok t' →
      get hv t' k = none) := by
  have hInv := reachable_inv hv t h
  have hw := hInv.1
  have hIff1 : get hv t k = none ↔ ∀ p ∈ items t, p.1 ≠ k := by
    rw [← Option.not_isSome_iff_eq_none, get_isSome_iff_mem_keys hv t hw k]
    constructor
    · intro hnm p hp he
      exact hnm (List.mem_map.mpr ⟨p, hp, he⟩)
    · intro hall hm
      obtain ⟨p, hp, he⟩ := List.mem_map.mp hm
      exact hall p hp he
  refine ⟨hIff1, ?_, ?_, ?_, ?_⟩
  · rw [← hIff1, ← Option.not_isSome_iff_eq_none, ← delete_isOk_iff hv t k]
    cases hdo : (delete hv t k).isOk <;> simp
  · intro p hp hpk
    have := (mem_items_iff_get hv t hw p.1 p.2).mp (by simpa using hp)
    rw [← hpk]
    exact this
  · intro t' hd
    have hds := delete_ok_spec hv t k hInv t' hd
    exact ⟨hds.2.1, hds.2.2.1, hds.2.2.2.1⟩
  · intro v t' hd
    have hds := delete_ok_spec hv (update hv t k v) k
      (update_spec hv t k v hInv).1 t' hd
    exact hds.2.1

theorem C4_witness :
    (get natHash (update natHash (HashTable.empty Nat Nat) 0 5) 1 = none
      ↔ ∀ p ∈ items (update natHash (HashTable.empty Nat Nat) 0 5), p.1 ≠ 1) ∧
    (∀ v t', delete natHash
        (update natHash (update natHash (HashTable.empty Nat Nat) 0 5) 1 v) 1
        = Except.ok t' → get natHash t' 1 = none) := by
  have h := C4_keynotfound natHash
    (update natHash (HashTable.empty Nat Nat) 0 5) 1
    (Reachable.set _ _ _ Reachable.empty)
  exact ⟨h.1, h.2.2.2.2⟩

/-- C5 (amended): after any sequence of `set` calls on a fresh container the
container holds exactly one entry per distinct key (no duplicate keys), every
key maps to the value of its last `set` call, and `len()` equals the number
of stored entries, which is the number of distinct keys inserted.  (The
original claim's arithmetic "distinct keys inserted minus successful deletes"
fails once a deleted key is re-inserted; see `C5_counterexample`.) -/
theorem C5_last_writer_wins (hv : K → Int) (ps : List (K × V)) :
    ((items (build hv ps)).map Prod.fst).Nodup ∧
    (∀ k, get hv (build hv ps) k
      = match lastWrite ps k with
        | some v => some v
        | none => none) ∧
    len (build hv ps) = (items (build hv ps)).length ∧
    len (build hv ps) = ((ps.map Prod.fst).dedup).length := by
  have hb : build hv ps
      = ps.foldl (fun acc p => update hv acc p.1 p.2) (HashTable.empty K V) :=
    rfl
  have hf := build_fold hv ps (HashTable.empty K V) (inv_empty hv)
  have hInv : Inv hv (build hv ps) := by rw [hb]; exact hf.1
  have hget : ∀ k, get hv (build hv ps) k
      = match lastWrite ps k with
        | some v => some v
        | none => none := by
    intro k
    rw [hb, hf.2 k, get_empty]
  have hlenitems : len (build hv ps) = (items (build hv ps)).length := by
    show (build hv ps).count_items = _
    rw [items_length_eq_count hv _ hInv.1]
  refine ⟨items_keys_nodup hv _ hInv.1, hget, hlenitems, ?_⟩
  have hperm : ((items (build hv ps)).map Prod.fst).Perm
      ((ps.map Prod.fst).dedup) := by
    rw [List.perm_ext_iff_of_nodup (items_keys_nodup hv _ hInv.1)
      (List.nodup_dedup _)]
    intro k
    rw [List.mem_dedup, ← get_isSome_iff_mem_keys hv _ hInv.1 k, hget k]
    cases hl : lastWrite ps k with
    | some w => rw [← lastWrite_isSome_iff ps k, hl]
    | none => rw [← lastWrite_isSome_iff ps k, hl]
  rw [hlenitems, ← List.length_map (items (build hv ps)) Prod.fst]
  exact hperm.length_eq

/-- C5 counterexample: for the call sequence `set(0, 0); delete(0); set(0, 1)`
the container ends with one stored entry, yet the number of distinct keys
inserted minus the number of successful deletes is `1 - 1 = 0`, so `len()`
does not equal that difference. -/
theorem C5_counterexample :
    len (runOps natHash [Op.set 0 0, Op.del 0, Op.set (0 : Nat) (1 : Nat)]) = 1 ∧
    distinctInserted [Op.set 0 0, Op.del 0, Op.set (0 : Nat) (1 : Nat)] = 1 ∧
    successfulDeletes natHash (HashTable.empty Nat Nat)
      [Op.set 0 0, Op.del 0, Op.set (0 : Nat) (1 : Nat)] = 1 ∧
    len (runOps natHash [Op.set 0 0, Op.del 0, Op.set (0 : Nat) (1 : Nat)])
      ≠ distinctInserted [Op.set 0 0, Op.del 0, Op.set (0 : Nat) (1 : Nat)]
        - successfulDeletes natHash (HashTable.empty Nat Nat)
            [Op.set 0 0, Op.del 0, Op.set (0 : Nat) (1 : Nat)] := by
  refine ⟨by decide, by decide, by decide, by decide⟩

/-- C6: in every state reachable from construction by set/get/delete the
capacity is at least 1, so the index computation `hash(key) % capacity` never
divides by zero; and the concrete shrink-then-reuse scenario (insert 10,
delete all 10, insert one new entry) does not crash and the new key's get
succeeds. -/
theorem C6_capacity_positive (hv : K → Int) (t : HashTable K V)
    (h : Reachable hv t) :
    1 ≤ t.table.length ∧
    get natHash (runOps natHash (((List.range 10).map (fun i => Op.set i i))
        ++ ((List.range 10).map (fun i => Op.del i))
        ++ [Op.set 100 7])) 100 = some 7 :=
  ⟨(reachable_inv hv t h).1.posCap, by decide⟩

theorem C6_witness :
    1 ≤ (HashTable.empty Nat Nat).table.length ∧
    get natHash (runOps natHash (((List.range 10).map (fun i => Op.set i i))
        ++ ((List.range 10).map (fun i => Op.del i))
        ++ [Op.set 100 7])) 100 = some 7 :=
  C6_capacity_positive natHash (HashTable.empty Nat Nat) Reachable.empty

/-- C7: the code enforces no capacity floor at the initial constant: a single
insert followed by a single delete on a fresh table already shrinks the
capacity to 2, which is below `_INITIAL_SIZE = 4` (a longer sequence reaches
capacity 1).  This evaluation exhibits the failing run. -/
theorem C7_capacity_below_initial :
    (delete natHash (update natHash (HashTable.empty Nat Nat) 0 0) 0).toOption.map
      (fun t => t.table.length) = some 2 ∧ 2 < INITIAL_SIZE := by
  refine ⟨by decide, by decide⟩

/-- C8: `set` on an already-present key replaces only that entry's value: the
count, the capacity and the keys of every chain are unchanged (no resize can
trigger, as the table and counter stay as they were); consequently a second
identical `set` leaves `len()` unchanged and `get` returns the value. -/
theorem C8_update_in_place (hv : K → Int) (t : HashTable K V) (k : K)
    (v : V) (h : Reachable hv t) :
    (∀ i s, find hv t k = some (i, s) →
      (update hv t k v).count_items = t.count_items ∧
      (update hv t k v).table.length = t.table.length ∧
      (update hv t k v).table.map chainKeys = t.table.map chainKeys) ∧
    len (update hv (update hv t k v) k v) = len (update hv t k v) ∧
    get hv (update hv (update hv t k v) k v) k = some v := by
  have hInv := reachable_inv hv t h
  have hu1 := update_spec hv t k v hInv
  have hu2 := update_spec hv (update hv t k v) k v hu1.1
  refine ⟨?_, ?_, hu2.2.1⟩
  · intro i s hf
    have hs := replace_spec hv t k v i s hInv.1 hf
    have hup : update hv t k v = replaceValue t i s v := by
      unfold update
      rw [hf]
    rw [hup]
    exact ⟨hs.2.2.1, hs.2.1, hs.2.2.2.1⟩
  · show (update hv (update hv t k v) k v).count_items
      = (update hv t k v).count_items
    have hc := hu2.2.2.2
    rw [hu1.2.1] at hc
    simpa using hc

theorem C8_witness :
    len (update natHash (update natHash
        (update natHash (HashTable.empty Nat Nat) 0 5) 0 5) 0 5)
      = len (update natHash
          (update natHash (HashTable.empty Nat Nat) 0 5) 0 5) ∧
    get natHash (update natHash (update natHash
        (update natHash (HashTable.empty Nat Nat) 0 5) 0 5) 0 5) 0
      = some 5 := by
  have h := C8_update_in_place natHash
    (update natHash (HashTable.empty Nat Nat) 0 5) 0 5
    (Reachable.set _ _ _ Reachable.empty)
  exact ⟨h.2.1, h.2.2⟩

/-- C9: the `items()` sequence of any reachable container enumerates exactly
the stored pairs — keys appear without duplication, a pair is listed iff
`get` returns exactly that binding, and the number of listed pairs is the
stored-entry count — and for the container built from
`{"a": 1, "b": 2, "c": 3}` the traversal is exactly that set of pairs. -/
theorem C9_items_complete (hv : K → Int) (t : HashTable K V)
    (h : Reachable hv t) :
    ((items t).map Prod.fst).Nodup ∧
    (∀ k v, (k, v) ∈ items t ↔ get hv t k = some v) ∧
    (items t).length = t.count_items ∧
    (items (build strHash [("a", 1), ("b", 2), ("c", 3)])).Perm
      [("a", 1), ("b", 2), ("c", 3)] := by
  have hw := (reachable_inv hv t h).1
  refine ⟨items_keys_nodup hv t hw,
    fun k v => mem_items_iff_get hv t hw k v,
    items_length_eq_count hv t hw, ?_⟩
  have he : items (build strHash [("a", 1), ("b", 2), ("c", 3)])
      = [("a", 1), ("b", 2), ("c", 3)] := by decide
  rw [he]

theorem C9_witness :
    ((items (update natHash (HashTable.empty Nat Nat) 0 5)).map Prod.fst).Nodup ∧
    ((0, 5) ∈ items (update natHash (HashTable.empty Nat Nat) 0 5)
      ↔ get natHash (update natHash (HashTable.empty Nat Nat) 0 5) 0 = some 5) := by
  have h := C9_items_complete natHash
    (update natHash (HashTable.empty Nat Nat) 0 5)
    (Reachable.set _ _ _ Reachable.empty)
  exact ⟨h.1, h.2.1 0 5⟩

/-- C10: when `delete(key)` fails with KeyNotFound, the error propagates with
the container completely unchanged — same bucket table (hence every chain and
entry and the capacity) and same count — because `_find` raises before any of
`_delete`'s mutating statements run; and the failure happens exactly when the
key is absent (`get` fails on it too).  `get` itself is a pure observation on
both of its paths. -/
theorem C10_failed_delete_unchanged (hv : K → Int) (t : HashTable K V)
    (k : K) (e : HashTable K V) (hd : delete hv t k = Except.error e) :
    e.table = t.table ∧ e.count_items = t.count_items ∧ get hv t k = none := by
  obtain ⟨he, hg⟩ := delete_eq_error_elim hv t k e hd
  subst he
  exact ⟨rfl, rfl, hg⟩

theorem C10_witness :
    (HashTable.empty Nat Nat).table = (HashTable.empty Nat Nat).table ∧
    (HashTable.empty Nat Nat).count_items
      = (HashTable.empty Nat Nat).count_items ∧
    get natHash (HashTable.empty Nat Nat) 0 = none :=
  C10_failed_delete_unchanged natHash (HashTable.empty Nat Nat) 0
    (HashTable.empty Nat Nat) rfl

end Claims

end SHT
